import Mathlib

/-
  Verification of the cyclic-voltammetry firmware core (cv.ino).

  Shallow embedding notes:
  * The serial input is modelled as a finite list of byte values (the bytes
    that will ever arrive).  `Serial.available() > 0` corresponds to the list
    being nonempty; reading a byte consumes the head.
  * The observable outputs of the firmware are modelled as a trace of events:
    DAC writes (`dac.setVoltage`), evaluations of the per-step delay
    (recording the uint32 divisor `dac_vHigh - dac_vLow`), emissions of one
    sample line (timestamp/ADC payload is external and not modelled), the
    "DONE SWEEPING" completion line, and the handshake acknowledgement line.
  * Floating point `float` values are modelled as rationals; `round` is C's
    round-half-away-from-zero; the cast to `uint32_t` wraps mod 2^32
    (nonnegative values only arise in the properties checked here).
  * The busy-wait pause loop polls forever when no further byte ever arrives;
    this is modelled by the distinguished outcome `hang`.
  * `numScan` is a C `int`; the scan loop `for (scan_i = 1; scan_i <= numScan;
    ...)` runs `numScan.toNat` times.  The globals read by the loop bound and
    by the per-scan bound computation are never written during a sweep (proved
    below), so reading them once at entry is faithful.
-/

/-! ## Opcodes (cv.ino lines 11-17) -/

def HANDSHAKE : ℕ := 0
def START_PAUSE : ℕ := 4
def READ_SWEEPTIME : ℕ := 5
def READ_VLOW : ℕ := 6
def READ_VHIGH : ℕ := 7
def READ_NUM_SCAN : ℕ := 8
def STOP : ℕ := 9

/-! ## Global state (cv.ino lines 21-27) -/

structure GState where
  continue_scan : Bool
  sweeptime : ℚ
  vLow : ℚ
  vHigh : ℚ
  numScan : ℤ
  vLow_comp : ℚ
  vHigh_comp : ℚ
deriving DecidableEq, Repr

/-- The configuration fields of the global state (everything except the
`continue_scan` flag). -/
def configOf (g : GState) : ℚ × ℚ × ℚ × ℤ × ℚ × ℚ :=
  (g.sweeptime, g.vLow, g.vHigh, g.numScan, g.vLow_comp, g.vHigh_comp)

/-- C `round` (half away from zero) of the fraction `n / d`, `d > 0`.  For a
nonnegative fraction, `round(n/d) = floor((2n+d)/(2d))`, and both division
operands are nonnegative so truncating integer division computes the floor. -/
def roundHalfAway (n : ℤ) (d : ℕ) : ℤ :=
  if 0 ≤ n then (2 * n + (d : ℤ)) / (2 * (d : ℤ))
  else -((2 * (-n) + (d : ℤ)) / (2 * (d : ℤ)))

/-- Cast of an integer to `uint32_t` (wraps mod 2^32), as a natural number. -/
def toUInt32n (z : ℤ) : ℕ := (z % 4294967296).toNat

/-- `uint32_t` subtraction `a - b` for `a b < 2^32`. -/
def usub32 (a b : ℕ) : ℕ := (a + 4294967296 - b) % 4294967296

/-- `uint32_t(round(v / 5.0 * 4095.0))` (cv.ino lines 61-62).  Floats are
modelled as exact rationals, so `v / 5 * 4095 = 819 * v`, a fraction with
numerator `819 * v.num` and denominator `v.den`; the round is computed
directly on that fraction. -/
def dacCode (v : ℚ) : ℕ := toUInt32n (roundHalfAway (819 * v.num) v.den)

/-- `uint32_t dac_vLow = uint32_t(round(vLow_comp / 5.0 * 4095.0));`
(cv.ino line 61, evaluated at the start of each scan iteration). -/
def dac_vLow (g : GState) : ℕ := dacCode g.vLow_comp

/-- `uint32_t dac_vHigh = uint32_t(round(vHigh_comp / 5.0 * 4095.0));`
(cv.ino line 62). -/
def dac_vHigh (g : GState) : ℕ := dacCode g.vHigh_comp

/-! ## Observable events -/

inductive Ev where
  | dacWrite (code : ℕ)
  | delayDiv (divisor : ℕ)
  | sample (code : ℕ)
  | doneLine
  | ackLine
deriving DecidableEq, Repr

/-- The codes of the sample lines in a trace. -/
def sampleCodes (evs : List Ev) : List ℕ :=
  evs.filterMap fun e =>
    match e with
    | .sample c => some c
    | _ => none

/-- The codes written to the DAC in a trace. -/
def writeCodes (evs : List Ev) : List ℕ :=
  evs.filterMap fun e =>
    match e with
    | .dacWrite c => some c
    | _ => none

/-! ## check_start_pause_cmd (cv.ino lines 42-56) -/

/-- Effect of `check_start_pause_cmd` on one available byte: toggle
`continue_scan` on `START_PAUSE`, report `false` (stop) on `STOP`. -/
def checkByte (g : GState) (b : ℕ) : Bool × GState :=
  let g1 := if b = START_PAUSE then { g with continue_scan := !g.continue_scan } else g
  if b = STOP then (false, g1) else (true, g1)

/-- `check_start_pause_cmd`: polls the serial stream for one byte; with no
byte available it returns `true` immediately. -/
def check_start_pause_cmd (g : GState) (s : List ℕ) : Bool × GState × List ℕ :=
  match s with
  | [] => (true, g, [])
  | b :: rest => ((checkByte g b).1, (checkByte g b).2, rest)

/-! ## The pause busy-wait (cv.ino lines 78-85 and 103-110) -/

inductive WaitRes where
  | stopped (g : GState) (s : List ℕ)
  | resumed (g : GState) (s : List ℕ)
  | hang
deriving DecidableEq, Repr

/-- `while (continue_scan == false) { if (check_start_pause_cmd() == false)
{ ... return; } }` — consumes bytes until resumed or stopped; busy-waits
forever (`hang`) if the stream is exhausted while still paused. -/
def pauseWait (g : GState) : List ℕ → WaitRes
  | [] => if g.continue_scan then .resumed g [] else .hang
  | b :: rest =>
    if g.continue_scan then .resumed g (b :: rest)
    else
      match checkByte g b with
      | (true, g1) => pauseWait g1 rest
      | (false, g1) => .stopped g1 rest

/-! ## One loop iteration of a sweep phase (cv.ino lines 63-87 / 89-111) -/

inductive StepRes where
  | next (g : GState) (s : List ℕ)
  | stop (g : GState) (s : List ℕ)
  | hang
deriving DecidableEq, Repr

def StepRes.g? : StepRes → Option GState
  | .next g _ => some g
  | .stop g _ => some g
  | .hang => none

/-- Events of one executed step at code `c` with delay divisor `d`:
DAC write, delay evaluation, sample emission (in source order). -/
def stepEvs (d c : ℕ) : List Ev := [.dacWrite c, .delayDiv d, .sample c]

/-- The body of one iteration of the ascending or descending `for` loop:
if `continue_scan`, write the code, hold (delay divisor `d`), sample, then
poll for stop/pause; otherwise busy-wait until resumed or stopped.  On a
stop the rest code 819 is written and the sweep returns. -/
def stepBody (c d : ℕ) (g : GState) (s : List ℕ) : List Ev × StepRes :=
  if g.continue_scan then
    match check_start_pause_cmd g s with
    | (true, g1, s1) => ([.dacWrite c, .delayDiv d, .sample c], .next g1 s1)
    | (false, g1, s1) =>
        ([.dacWrite c, .delayDiv d, .sample c, .dacWrite 819], .stop g1 s1)
  else
    match pauseWait g s with
    | .stopped g1 s1 => ([.dacWrite 819], .stop g1 s1)
    | .resumed g1 s1 => ([], .next g1 s1)
    | .hang => ([], .hang)

/-! ## Loop counter sequences -/

/-- `[s, s+1, ..., s+k-1]`: the values taken by `counter_up`. -/
def upCodes (s : ℕ) : ℕ → List ℕ
  | 0 => []
  | k + 1 => s :: upCodes (s + 1) k

/-- `[s, s-1, ..., s-k+1]`: the values taken by `counter_dn`. -/
def downCodes (s : ℕ) : ℕ → List ℕ
  | 0 => []
  | k + 1 => s :: downCodes (s - 1) k

/-- Codes visited by `for (counter_up = dac_vLow; counter_up < dac_vHigh;
counter_up++)`. -/
def ascCodes (L H : ℕ) : List ℕ := upCodes L (H - L)

/-- Codes visited by `for (counter_dn = dac_vHigh; counter_dn > dac_vLow;
counter_dn--)`. -/
def descCodes (L H : ℕ) : List ℕ := downCodes H (H - L)

/-- Run the loop body over a list of counter values, threading state and
stream, short-circuiting on stop or hang. -/
def runCodes (d : ℕ) : List ℕ → GState → List ℕ → List Ev × StepRes
  | [], g, s => ([], .next g s)
  | c :: cs, g, s =>
    match stepBody c d g s with
    | (evs, .next g1 s1) =>
      match runCodes d cs g1 s1 with
      | (evs2, r) => (evs ++ evs2, r)
    | (evs, .stop g1 s1) => (evs, .stop g1 s1)
    | (evs, .hang) => (evs, .hang)

/-- One scan-loop iteration with the bound codes `L`, `H` and the delay
divisor `d` given: ascending phase then descending phase. -/
def runScanBodyPre (L H d : ℕ) (g : GState) (s : List ℕ) : List Ev × StepRes :=
  match runCodes d (ascCodes L H) g s with
  | (evs, .next g1 s1) =>
    match runCodes d (descCodes L H) g1 s1 with
    | (evs2, r) => (evs ++ evs2, r)
  | (evs, r) => (evs, r)

/-- One scan-loop iteration as in the source: `dac_vLow`/`dac_vHigh` are
recomputed from the globals at the start of each scan (cv.ino lines 61-62),
and the delay divisor is their uint32 difference. -/
def runScanBody (g : GState) (s : List ℕ) : List Ev × StepRes :=
  runScanBodyPre (dac_vLow g) (dac_vHigh g) (usub32 (dac_vHigh g) (dac_vLow g)) g s

/-- The scan loop, `n` remaining iterations, recomputing bounds per scan. -/
def runScans : ℕ → GState → List ℕ → List Ev × StepRes
  | 0, g, s => ([], .next g s)
  | n + 1, g, s =>
    match runScanBody g s with
    | (evs, .next g1 s1) =>
      match runScans n g1 s1 with
      | (evs2, r) => (evs ++ evs2, r)
    | (evs, .stop g1 s1) => (evs, .stop g1 s1)
    | (evs, .hang) => (evs, .hang)

/-- The scan loop with the bound codes fixed once up front. -/
def runScansPre (L H d : ℕ) : ℕ → GState → List ℕ → List Ev × StepRes
  | 0, g, s => ([], .next g s)
  | n + 1, g, s =>
    match runScanBodyPre L H d g s with
    | (evs, .next g1 s1) =>
      match runScansPre L H d n g1 s1 with
      | (evs2, r) => (evs ++ evs2, r)
    | (evs, .stop g1 s1) => (evs, .stop g1 s1)
    | (evs, .hang) => (evs, .hang)

inductive SweepRes where
  | completed (g : GState) (s : List ℕ)
  | stopped (g : GState) (s : List ℕ)
  | hang
deriving DecidableEq, Repr

def SweepRes.g? : SweepRes → Option GState
  | .completed g _ => some g
  | .stopped g _ => some g
  | .hang => none

/-- The trailing events of a normally completed sweep (cv.ino lines 113-118):
rest-code write and five "DONE SWEEPING" lines. -/
def doneEvs : List Ev :=
  [.dacWrite 819, .doneLine, .doneLine, .doneLine, .doneLine, .doneLine]

/-- `sweep_voltage` (cv.ino lines 58-119). -/
def sweep_voltage (g : GState) (s : List ℕ) : List Ev × SweepRes :=
  match runScans g.numScan.toNat g s with
  | (evs, .next g1 s1) => (evs ++ doneEvs, .completed g1 s1)
  | (evs, .stop g1 s1) => (evs, .stopped g1 s1)
  | (evs, .hang) => (evs, .hang)

/-- Follows the spec's words (§5, §9): the bound codes and the per-step delay
divisor are computed once up front at the start of the sweep, not once per
scan.  Compared against the faithful `sweep_voltage` below. -/
def sweep_voltage_precomputed (g : GState) (s : List ℕ) : List Ev × SweepRes :=
  match runScansPre (dac_vLow g) (dac_vHigh g) (usub32 (dac_vHigh g) (dac_vLow g))
      g.numScan.toNat g s with
  | (evs, .next g1 s1) => (evs ++ doneEvs, .completed g1 s1)
  | (evs, .stop g1 s1) => (evs, .stopped g1 s1)
  | (evs, .hang) => (evs, .hang)

/-! ## Numeric payload parsing

The token parsing is performed by the Arduino core library
(`Serial.readStringUntil`, `String.toFloat`, `String.toInt`), which is an
external collaborator of this repository (spec §2: the Transport provides
"read delimited numeric token").  `readStringUntilB` models the delimited
read; the two parsers below are modelled from the spec. -/

/-- `Serial.readStringUntil(delim)`: consumes bytes up to and including the
first occurrence of `delim`; the delimiter is not part of the token.  With no
delimiter in the stream the whole stream is consumed (timeout). -/
def readStringUntilB (delim : ℕ) : List ℕ → List ℕ × List ℕ
  | [] => ([], [])
  | b :: rest =>
    if b = delim then ([], rest)
    else
      match readStringUntilB delim rest with
      | (tok, r) => (b :: tok, r)

def isDigitB (b : ℕ) : Bool := decide (48 ≤ b) && decide (b ≤ 57)

/-- Longest prefix of ASCII decimal digits, and the remainder. -/
def takeDigits : List ℕ → List ℕ × List ℕ
  | [] => ([], [])
  | b :: r =>
    if isDigitB b then
      match takeDigits r with
      | (ds, rest) => (b :: ds, rest)
    else ([], b :: r)

def digitsToNat : List ℕ → ℕ → ℕ
  | [], acc => acc
  | b :: r, acc => digitsToNat r (acc * 10 + (b - 48))

/-- Value of an unsigned decimal token `digits [ '.' digits ]` (46 = `'.'`);
`none` when no digit is present (malformed). -/
def parseUnsignedQ (l : List ℕ) : Option ℚ :=
  match takeDigits l with
  | (ip, r1) =>
    match r1 with
    | [] => if ip.isEmpty then none else some (digitsToNat ip 0 : ℚ)
    | b :: r2 =>
      if b = 46 then
        match takeDigits r2 with
        | (fp, _) =>
          if ip.isEmpty && fp.isEmpty then none
          else some ((digitsToNat ip 0 : ℚ)
            + (digitsToNat fp 0 : ℚ) / (10 : ℚ) ^ fp.length)
      else if ip.isEmpty then none else some (digitsToNat ip 0 : ℚ)

/-- Modelled from the spec: `String.toFloat` of the Arduino core library
(not under src/) — "malformed or empty tokens parse to zero" (spec §4.1, §7).
An optional sign (45 = `'-'`, 43 = `'+'`) followed by a decimal number; any
token without a leading numeric value yields 0. -/
def parseFloatTok (tok : List ℕ) : ℚ :=
  match tok with
  | [] => 0
  | b :: r =>
    if b = 45 then -((parseUnsignedQ r).getD 0)
    else if b = 43 then (parseUnsignedQ r).getD 0
    else (parseUnsignedQ (b :: r)).getD 0

/-- Modelled from the spec: `String.toInt` of the Arduino core library (not
under src/) — an optional sign followed by decimal digits; malformed or empty
tokens parse to zero. -/
def parseIntTok (tok : List ℕ) : ℤ :=
  match tok with
  | [] => 0
  | b :: r =>
    if b = 45 then -((digitsToNat (takeDigits r).1 0 : ℤ))
    else if b = 43 then (digitsToNat (takeDigits r).1 0 : ℤ)
    else (digitsToNat (takeDigits (b :: r)).1 0 : ℤ)

/-! ## The dispatcher loop (cv.ino lines 121-154) -/

/-- `case START_PAUSE: continue_scan = true;` (cv.ino line 129). -/
def startPauseUpdate (g : GState) : GState := { g with continue_scan := true }

/-- Follows the spec's words (§4.1 opcode table): opcode 4 "flips
`continueFlag`".  Compared against the source's `startPauseUpdate`. -/
def startPauseFlip (g : GState) : GState :=
  { g with continue_scan := !g.continue_scan }

inductive LoopRes where
  | ok (g : GState) (s : List ℕ)
  | hang
deriving DecidableEq, Repr

def toLoopRes : SweepRes → LoopRes
  | .completed g s => .ok g s
  | .stopped g s => .ok g s
  | .hang => .hang

/-- One invocation of `loop()`: with no byte available it does nothing;
otherwise it reads one byte and dispatches on the opcode.  The handshake
reply models `Serial.availableForWrite()` as ready. -/
def loopStep (g : GState) (s : List ℕ) : List Ev × LoopRes :=
  match s with
  | [] => ([], .ok g [])
  | b :: rest =>
    if b = START_PAUSE then
      ((sweep_voltage (startPauseUpdate g) rest).1,
        toLoopRes (sweep_voltage (startPauseUpdate g) rest).2)
    else if b = READ_SWEEPTIME then
      ([], .ok { g with sweeptime := parseFloatTok (readStringUntilB 120 rest).1 }
        (readStringUntilB 120 rest).2)
    else if b = READ_VLOW then
      ([], .ok { g with
          vLow := parseFloatTok (readStringUntilB 120 rest).1,
          vLow_comp := parseFloatTok (readStringUntilB 120 rest).1 + 1 }
        (readStringUntilB 120 rest).2)
    else if b = READ_VHIGH then
      ([], .ok { g with
          vHigh := parseFloatTok (readStringUntilB 120 rest).1,
          vHigh_comp := parseFloatTok (readStringUntilB 120 rest).1 + 1 }
        (readStringUntilB 120 rest).2)
    else if b = READ_NUM_SCAN then
      ([], .ok { g with numScan := parseIntTok (readStringUntilB 120 rest).1 }
        (readStringUntilB 120 rest).2)
    else if b = HANDSHAKE then
      ([.ackLine], .ok g rest)
    else ([], .ok g rest)

/-! ## Auxiliary trace vocabulary -/

/-- `n` concatenated copies of a list. -/
def repeatList {α : Type} (n : ℕ) (l : List α) : List α :=
  match n with
  | 0 => []
  | n + 1 => l ++ repeatList n l

def phaseEvs (d : ℕ) : List ℕ → List Ev
  | [] => []
  | c :: cs => stepEvs d c ++ phaseEvs d cs

/-- The event block of one uninterrupted scan. -/
def scanEvs (L H d : ℕ) : List Ev :=
  phaseEvs d (ascCodes L H) ++ phaseEvs d (descCodes L H)

/-! ## Concrete states used in witnesses and counterexamples -/

/-- A small configuration: compensated bounds give `dac_vLow = 0`,
`dac_vHigh = 2`.  Concrete rationals are written with `mkRat` so that their
numerator and denominator are kernel-computable. -/
def gBase : GState :=
  { continue_scan := true, sweeptime := mkRat 20 1, vLow := mkRat (-1) 1,
    vHigh := mkRat 3 5, numScan := 1, vLow_comp := mkRat 0 1,
    vHigh_comp := mkRat 10 4095 }

/-- `gBase` with the flag cleared (paused). -/
def gPaused : GState := { gBase with continue_scan := false }

/-- Misconfigured bounds: both compensated values map to code 819. -/
def gFlat : GState := { gBase with vLow_comp := mkRat 1 1, vHigh_comp := mkRat 1 1 }

example : dac_vLow gBase = 0 := by decide
example : dac_vHigh gBase = 2 := by decide
example : dac_vLow gFlat = 819 ∧ dac_vHigh gFlat = 819 := by decide
example : sampleCodes (sweep_voltage gBase []).1 = [0, 1, 2, 1] := by decide
example : sampleCodes (sweep_voltage gBase [START_PAUSE, START_PAUSE]).1 = [0, 2, 1] := by
  decide

/-! ## Behavior of `checkByte` -/

lemma checkByte_ne (g : GState) (b : ℕ) (h4 : b ≠ START_PAUSE) (h9 : b ≠ STOP) :
    checkByte g b = (true, g) := by
  simp [checkByte, h4, h9]

lemma checkByte_pause (g : GState) :
    checkByte g START_PAUSE
      = (true, { g with continue_scan := !g.continue_scan }) := by
  simp [checkByte, START_PAUSE, STOP]

lemma checkByte_stop (g : GState) : checkByte g STOP = (false, g) := by
  simp [checkByte, START_PAUSE, STOP]

lemma checkByte_config (g : GState) (b : ℕ) :
    configOf (checkByte g b).2 = configOf g := by
  by_cases h4 : b = START_PAUSE
  · subst h4; rw [checkByte_pause]; rfl
  · by_cases h9 : b = STOP
    · subst h9; rw [checkByte_stop]
    · rw [checkByte_ne g b h4 h9]

/-! ## Behavior of the pause busy-wait -/

/-- While paused, a stop leaves the state exactly as it was (still paused),
and a resume leaves it exactly as it was except that the flag is set: nothing
else of the state is touched by the busy-wait. -/
lemma pauseWait_spec : ∀ (s : List ℕ) (g : GState), g.continue_scan = false →
    (∀ g' s', pauseWait g s = .stopped g' s' → g' = g) ∧
    (∀ g' s', pauseWait g s = .resumed g' s' →
      g' = { g with continue_scan := true }) := by
  intro s
  induction s with
  | nil =>
    intro g hc
    constructor <;> intro g' s' h <;> simp [pauseWait, hc] at h
  | cons b rest ih =>
    intro g hc
    by_cases h4 : b = START_PAUSE
    · subst h4
      have hres : pauseWait g (START_PAUSE :: rest)
          = .resumed { g with continue_scan := true } rest := by
        have h1 : ({ g with continue_scan := !g.continue_scan } : GState)
            = { g with continue_scan := true } := by rw [hc]; rfl
        cases rest with
        | nil => simp [pauseWait, hc, checkByte_pause, h1]
        | cons x xs => simp [pauseWait, hc, checkByte_pause, h1]
      constructor <;> intro g' s' h <;> rw [hres] at h
      · exact absurd h (by simp)
      · exact (WaitRes.resumed.injEq _ _ _ _ ▸ h).1.symm
    · by_cases h9 : b = STOP
      · subst h9
        have hstp : pauseWait g (STOP :: rest) = .stopped g rest := by
          simp [pauseWait, hc, checkByte_stop]
        constructor <;> intro g' s' h <;> rw [hstp] at h
        · exact (WaitRes.stopped.injEq _ _ _ _ ▸ h).1.symm
        · exact absurd h (by simp)
      · have hrec : pauseWait g (b :: rest) = pauseWait g rest := by
          simp [pauseWait, hc, checkByte_ne g b h4 h9]
        constructor <;> intro g' s' h <;> rw [hrec] at h
        · exact (ih g hc).1 g' s' h
        · exact (ih g hc).2 g' s' h

/-! ## Behavior of one loop-body iteration -/

lemma stepBody_true_nil (c d : ℕ) (g : GState) (hc : g.continue_scan = true) :
    stepBody c d g [] = ([.dacWrite c, .delayDiv d, .sample c], .next g []) := by
  simp [stepBody, hc, check_start_pause_cmd]

lemma stepBody_true_benign (c d : ℕ) (g : GState) (b : ℕ) (r : List ℕ)
    (hc : g.continue_scan = true) (h4 : b ≠ START_PAUSE) (h9 : b ≠ STOP) :
    stepBody c d g (b :: r)
      = ([.dacWrite c, .delayDiv d, .sample c], .next g r) := by
  simp [stepBody, hc, check_start_pause_cmd, checkByte_ne g b h4 h9]

lemma stepBody_true_pause (c d : ℕ) (g : GState) (r : List ℕ)
    (hc : g.continue_scan = true) :
    stepBody c d g (START_PAUSE :: r)
      = ([.dacWrite c, .delayDiv d, .sample c],
          .next { g with continue_scan := false } r) := by
  simp [stepBody, hc, check_start_pause_cmd, checkByte_pause]

lemma stepBody_true_stop (c d : ℕ) (g : GState) (r : List ℕ)
    (hc : g.continue_scan = true) :
    stepBody c d g (STOP :: r)
      = ([.dacWrite c, .delayDiv d, .sample c, .dacWrite 819], .stop g r) := by
  simp [stepBody, hc, check_start_pause_cmd, checkByte_stop]

lemma stepBody_false_stopped (c d : ℕ) (g g1 : GState) (s s1 : List ℕ)
    (hc : g.continue_scan = false) (h : pauseWait g s = .stopped g1 s1) :
    stepBody c d g s = ([.dacWrite 819], .stop g1 s1) := by
  simp [stepBody, hc, h]

lemma stepBody_false_resumed (c d : ℕ) (g g1 : GState) (s s1 : List ℕ)
    (hc : g.continue_scan = false) (h : pauseWait g s = .resumed g1 s1) :
    stepBody c d g s = ([], .next g1 s1) := by
  simp [stepBody, hc, h]

lemma stepBody_false_hang (c d : ℕ) (g : GState) (s : List ℕ)
    (hc : g.continue_scan = false) (h : pauseWait g s = .hang) :
    stepBody c d g s = ([], .hang) := by
  simp [stepBody, hc, h]

/-! ## Uninterrupted (benign-stream) closed forms -/

lemma runCodes_benign (d : ℕ) :
    ∀ (codes : List ℕ) (g : GState) (s : List ℕ),
      g.continue_scan = true →
      (∀ b ∈ s, b ≠ START_PAUSE ∧ b ≠ STOP) →
      ∃ s', (∀ b ∈ s', b ≠ START_PAUSE ∧ b ≠ STOP) ∧
        runCodes d codes g s = (phaseEvs d codes, .next g s') := by
  intro codes
  induction codes with
  | nil => intro g s _ hs; exact ⟨s, hs, rfl⟩
  | cons c cs ih =>
    intro g s hc hs
    rcases s with _ | ⟨b, r⟩
    · obtain ⟨s', hs', heq⟩ := ih g [] hc (by simp)
      refine ⟨s', hs', ?_⟩
      simp only [runCodes, stepBody_true_nil c d g hc, heq, phaseEvs, stepEvs]
    · have hb := hs b (List.mem_cons_self b r)
      have hr : ∀ x ∈ r, x ≠ START_PAUSE ∧ x ≠ STOP :=
        fun x hx => hs x (List.mem_cons_of_mem b hx)
      obtain ⟨s', hs', heq⟩ := ih g r hc hr
      refine ⟨s', hs', ?_⟩
      simp only [runCodes, stepBody_true_benign c d g b r hc hb.1 hb.2, heq,
        phaseEvs, stepEvs]

lemma runScanBodyPre_benign (L H d : ℕ) (g : GState) (s : List ℕ)
    (hc : g.continue_scan = true)
    (hs : ∀ b ∈ s, b ≠ START_PAUSE ∧ b ≠ STOP) :
    ∃ s', (∀ b ∈ s', b ≠ START_PAUSE ∧ b ≠ STOP) ∧
      runScanBodyPre L H d g s = (scanEvs L H d, .next g s') := by
  obtain ⟨s1, hs1, h1⟩ := runCodes_benign d (ascCodes L H) g s hc hs
  obtain ⟨s2, hs2, h2⟩ := runCodes_benign d (descCodes L H) g s1 hc hs1
  exact ⟨s2, hs2, by simp only [runScanBodyPre, h1, h2, scanEvs]⟩

lemma runScans_benign : ∀ (n : ℕ) (g : GState) (s : List ℕ),
    g.continue_scan = true →
    (∀ b ∈ s, b ≠ START_PAUSE ∧ b ≠ STOP) →
    ∃ s', (∀ b ∈ s', b ≠ START_PAUSE ∧ b ≠ STOP) ∧
      runScans n g s
        = (repeatList n
            (scanEvs (dac_vLow g) (dac_vHigh g) (usub32 (dac_vHigh g) (dac_vLow g))),
           .next g s') := by
  intro n
  induction n with
  | zero => intro g s _ hs; exact ⟨s, hs, rfl⟩
  | succ n ih =>
    intro g s hc hs
    obtain ⟨s1, hs1, h1⟩ := runScanBodyPre_benign (dac_vLow g) (dac_vHigh g)
      (usub32 (dac_vHigh g) (dac_vLow g)) g s hc hs
    obtain ⟨s2, hs2, h2⟩ := ih g s1 hc hs1
    refine ⟨s2, hs2, ?_⟩
    have hb : runScanBody g s
        = (scanEvs (dac_vLow g) (dac_vHigh g) (usub32 (dac_vHigh g) (dac_vLow g)),
           .next g s1) := h1
    simp only [runScans, hb, h2, repeatList]

lemma sweep_voltage_benign (g : GState) (s : List ℕ)
    (hc : g.continue_scan = true)
    (hs : ∀ b ∈ s, b ≠ START_PAUSE ∧ b ≠ STOP) :
    ∃ s', sweep_voltage g s
      = (repeatList g.numScan.toNat
          (scanEvs (dac_vLow g) (dac_vHigh g) (usub32 (dac_vHigh g) (dac_vLow g)))
          ++ doneEvs,
         .completed g s') := by
  obtain ⟨s', _, h⟩ := runScans_benign g.numScan.toNat g s hc hs
  exact ⟨s', by simp only [sweep_voltage, h]⟩

/-! ## Configuration preservation during a sweep -/

lemma configOf_flag (g : GState) (b : Bool) :
    configOf { g with continue_scan := b } = configOf g := rfl

lemma stepBody_config (c d : ℕ) (g : GState) (s : List ℕ) :
    ∀ g', (stepBody c d g s).2.g? = some g' → configOf g' = configOf g := by
  intro g' h
  by_cases hc : g.continue_scan
  · rcases s with _ | ⟨b, r⟩
    · rw [stepBody_true_nil c d g hc] at h
      cases h; rfl
    · by_cases h4 : b = START_PAUSE
      · subst h4; rw [stepBody_true_pause c d g r hc] at h
        cases h; rfl
      · by_cases h9 : b = STOP
        · subst h9; rw [stepBody_true_stop c d g r hc] at h
          cases h; rfl
        · rw [stepBody_true_benign c d g b r hc h4 h9] at h
          cases h; rfl
  · have hc' : g.continue_scan = false := by simpa using hc
    rcases hpw : pauseWait g s with ⟨g1, s1⟩ | ⟨g1, s1⟩ | _
    · rw [stepBody_false_stopped c d g g1 s s1 hc' hpw] at h
      simp only [StepRes.g?, Option.some.injEq] at h
      rw [← h, (pauseWait_spec s g hc').1 g1 s1 hpw]
    · rw [stepBody_false_resumed c d g g1 s s1 hc' hpw] at h
      simp only [StepRes.g?, Option.some.injEq] at h
      rw [← h, (pauseWait_spec s g hc').2 g1 s1 hpw]
      rfl
    · rw [stepBody_false_hang c d g s hc' hpw] at h
      cases h

lemma runCodes_config (d : ℕ) : ∀ (codes : List ℕ) (g : GState) (s : List ℕ)
    (g' : GState), (runCodes d codes g s).2.g? = some g' →
    configOf g' = configOf g := by
  intro codes
  induction codes with
  | nil => intro g s g' h; cases h; rfl
  | cons c cs ih =>
    intro g s g' h
    rcases hsb : stepBody c d g s with ⟨evs0, r0⟩
    have hcfg0 : ∀ g1, r0.g? = some g1 → configOf g1 = configOf g := by
      intro g1 h1
      exact stepBody_config c d g s g1 (by rw [hsb]; exact h1)
    rcases r0 with ⟨g1, s1⟩ | ⟨g1, s1⟩ | _
    · rcases hp : runCodes d cs g1 s1 with ⟨evs2, r2⟩
      simp only [runCodes, hsb, hp] at h
      have : configOf g' = configOf g1 := by
        apply ih g1 s1 g'
        rw [hp]
        exact h
      exact this.trans (hcfg0 g1 rfl)
    · simp only [runCodes, hsb, StepRes.g?, Option.some.injEq] at h
      exact h ▸ hcfg0 g1 rfl
    · simp only [runCodes, hsb] at h
      cases h

lemma runScanBodyPre_config (L H d : ℕ) (g : GState) (s : List ℕ) :
    ∀ g', (runScanBodyPre L H d g s).2.g? = some g' →
    configOf g' = configOf g := by
  intro g' h
  rcases h1 : runCodes d (ascCodes L H) g s with ⟨evs1, r1⟩
  rcases r1 with ⟨g1, s1⟩ | ⟨g1, s1⟩ | _
  · rcases h2 : runCodes d (descCodes L H) g1 s1 with ⟨evs2, r2⟩
    simp only [runScanBodyPre, h1, h2] at h
    have hcfg1 : configOf g1 = configOf g := by
      apply runCodes_config d (ascCodes L H) g s g1; rw [h1]; rfl
    have : configOf g' = configOf g1 := by
      apply runCodes_config d (descCodes L H) g1 s1 g'
      rw [h2]
      exact h
    exact this.trans hcfg1
  · simp only [runScanBodyPre, h1] at h
    cases h
    apply runCodes_config d (ascCodes L H) g s g'; rw [h1]; rfl
  · simp only [runScanBodyPre, h1] at h
    cases h

lemma runScans_config : ∀ (n : ℕ) (g : GState) (s : List ℕ) (g' : GState),
    (runScans n g s).2.g? = some g' → configOf g' = configOf g := by
  intro n
  induction n with
  | zero => intro g s g' h; cases h; rfl
  | succ n ih =>
    intro g s g' h
    rcases hsb : runScanBody g s with ⟨evs0, r0⟩
    have hcfg0 : ∀ g1, r0.g? = some g1 → configOf g1 = configOf g := by
      intro g1 h1
      apply runScanBodyPre_config (dac_vLow g) (dac_vHigh g)
        (usub32 (dac_vHigh g) (dac_vLow g)) g s g1
      rw [show runScanBodyPre (dac_vLow g) (dac_vHigh g)
        (usub32 (dac_vHigh g) (dac_vLow g)) g s = (evs0, r0) from hsb]
      exact h1
    rcases r0 with ⟨g1, s1⟩ | ⟨g1, s1⟩ | _
    · rcases hp : runScans n g1 s1 with ⟨evs2, r2⟩
      simp only [runScans, hsb, hp] at h
      have : configOf g' = configOf g1 := by
        apply ih g1 s1 g'; rw [hp]; exact h
      exact this.trans (hcfg0 g1 rfl)
    · simp only [runScans, hsb, StepRes.g?, Option.some.injEq] at h
      exact h ▸ hcfg0 g1 rfl
    · simp only [runScans, hsb] at h
      cases h

lemma sweep_voltage_config (g : GState) (s : List ℕ) :
    ∀ g', (sweep_voltage g s).2.g? = some g' → configOf g' = configOf g := by
  intro g' h
  rcases hr : runScans g.numScan.toNat g s with ⟨evs, r⟩
  rcases r with ⟨g1, s1⟩ | ⟨g1, s1⟩ | _ <;>
    simp only [sweep_voltage, hr, SweepRes.g?, Option.some.injEq] at h
  · exact h ▸ runScans_config g.numScan.toNat g s g1 (by rw [hr]; rfl)
  · exact h ▸ runScans_config g.numScan.toNat g s g1 (by rw [hr]; rfl)
  · exact Option.noConfusion h

/-! ## The per-scan bound recomputation is equivalent to computing once -/

lemma dac_eq_of_config {g g' : GState} (h : configOf g' = configOf g) :
    dac_vLow g' = dac_vLow g ∧ dac_vHigh g' = dac_vHigh g := by
  have h5 : g'.vLow_comp = g.vLow_comp := congrArg (fun t => t.2.2.2.2.1) h
  have h6 : g'.vHigh_comp = g.vHigh_comp := congrArg (fun t => t.2.2.2.2.2) h
  exact ⟨by simp [dac_vLow, h5], by simp [dac_vHigh, h6]⟩

lemma runScans_eq_pre : ∀ (n : ℕ) (g : GState) (s : List ℕ),
    runScans n g s
      = runScansPre (dac_vLow g) (dac_vHigh g) (usub32 (dac_vHigh g) (dac_vLow g))
          n g s := by
  intro n
  induction n with
  | zero => intro g s; rfl
  | succ n ih =>
    intro g s
    rcases hsb : runScanBody g s with ⟨evs0, r0⟩
    have hsb' : runScanBodyPre (dac_vLow g) (dac_vHigh g)
        (usub32 (dac_vHigh g) (dac_vLow g)) g s = (evs0, r0) := hsb
    rcases r0 with ⟨g1, s1⟩ | ⟨g1, s1⟩ | _
    · have hcfg : configOf g1 = configOf g := by
        apply runScanBodyPre_config (dac_vLow g) (dac_vHigh g)
          (usub32 (dac_vHigh g) (dac_vLow g)) g s g1
        rw [hsb']
        rfl
      obtain ⟨hL, hH⟩ := dac_eq_of_config hcfg
      simp only [runScans, runScansPre, hsb, hsb', ih g1 s1, hL, hH]
    · simp only [runScans, runScansPre, hsb, hsb']
    · simp only [runScans, runScansPre, hsb, hsb']

lemma sweep_eq_pre (g : GState) (s : List ℕ) :
    sweep_voltage g s = sweep_voltage_precomputed g s := by
  simp only [sweep_voltage, sweep_voltage_precomputed, runScans_eq_pre]

/-! ## On a stop, the last event is the rest-code write -/

lemma stepBody_stop_form (c d : ℕ) (g : GState) (s : List ℕ) :
    ∀ evs g1 s1, stepBody c d g s = (evs, .stop g1 s1) →
    ∃ l, evs = l ++ [Ev.dacWrite 819] := by
  intro evs g1 s1 h
  by_cases hc : g.continue_scan
  · rcases s with _ | ⟨b, r⟩
    · rw [stepBody_true_nil c d g hc] at h
      cases h
    · by_cases h4 : b = START_PAUSE
      · subst h4; rw [stepBody_true_pause c d g r hc] at h
        cases h
      · by_cases h9 : b = STOP
        · subst h9; rw [stepBody_true_stop c d g r hc] at h
          obtain ⟨h1, -⟩ := Prod.mk.injEq .. ▸ h
          exact ⟨[.dacWrite c, .delayDiv d, .sample c], h1.symm⟩
        · rw [stepBody_true_benign c d g b r hc h4 h9] at h
          cases h
  · have hc' : g.continue_scan = false := by simpa using hc
    rcases hpw : pauseWait g s with ⟨g2, s2⟩ | ⟨g2, s2⟩ | _
    · rw [stepBody_false_stopped c d g g2 s s2 hc' hpw] at h
      obtain ⟨h1, -⟩ := Prod.mk.injEq .. ▸ h
      exact ⟨[], h1.symm⟩
    · rw [stepBody_false_resumed c d g g2 s s2 hc' hpw] at h
      cases h
    · rw [stepBody_false_hang c d g s hc' hpw] at h
      cases h

lemma runCodes_stop_form (d : ℕ) : ∀ (codes : List ℕ) (g : GState) (s : List ℕ)
    (evs : List Ev) (g1 : GState) (s1 : List ℕ),
    runCodes d codes g s = (evs, .stop g1 s1) →
    ∃ l, evs = l ++ [Ev.dacWrite 819] := by
  intro codes
  induction codes with
  | nil => intro g s evs g1 s1 h; cases h
  | cons c cs ih =>
    intro g s evs g1 s1 h
    rcases hsb : stepBody c d g s with ⟨evs0, r0⟩
    rcases r0 with ⟨g2, s2⟩ | ⟨g2, s2⟩ | _
    · rcases hp : runCodes d cs g2 s2 with ⟨evs2, r2⟩
      simp only [runCodes, hsb, hp] at h
      rcases r2 with ⟨g3, s3⟩ | ⟨g3, s3⟩ | _
      · cases h
      · obtain ⟨h1, h2⟩ := Prod.mk.injEq .. ▸ h
        obtain ⟨l, hl⟩ := ih g2 s2 evs2 g3 s3 (by rw [hp])
        exact ⟨evs0 ++ l, by rw [← h1, hl, List.append_assoc]⟩
      · cases h
    · simp only [runCodes, hsb] at h
      obtain ⟨h1, h2⟩ := Prod.mk.injEq .. ▸ h
      obtain ⟨l, hl⟩ := stepBody_stop_form c d g s evs0 g2 s2 hsb
      exact ⟨l, by rw [← h1, hl]⟩
    · simp only [runCodes, hsb] at h
      cases h

lemma runScanBodyPre_stop_form (L H d : ℕ) (g : GState) (s : List ℕ) :
    ∀ evs g1 s1, runScanBodyPre L H d g s = (evs, .stop g1 s1) →
    ∃ l, evs = l ++ [Ev.dacWrite 819] := by
  intro evs g1 s1 h
  rcases h1 : runCodes d (ascCodes L H) g s with ⟨evs1, r1⟩
  rcases r1 with ⟨g2, s2⟩ | ⟨g2, s2⟩ | _
  · rcases h2 : runCodes d (descCodes L H) g2 s2 with ⟨evs2, r2⟩
    simp only [runScanBodyPre, h1, h2] at h
    rcases r2 with ⟨g3, s3⟩ | ⟨g3, s3⟩ | _
    · cases h
    · obtain ⟨ha, -⟩ := Prod.mk.injEq .. ▸ h
      obtain ⟨l, hl⟩ := runCodes_stop_form d (descCodes L H) g2 s2 evs2 g3 s3 (by rw [h2])
      exact ⟨evs1 ++ l, by rw [← ha, hl, List.append_assoc]⟩
    · cases h
  · simp only [runScanBodyPre, h1] at h
    obtain ⟨ha, -⟩ := Prod.mk.injEq .. ▸ h
    obtain ⟨l, hl⟩ := runCodes_stop_form d (ascCodes L H) g s evs1 g2 s2 (by rw [h1])
    exact ⟨l, by rw [← ha, hl]⟩
  · simp only [runScanBodyPre, h1] at h
    cases h

lemma runScans_stop_form : ∀ (n : ℕ) (g : GState) (s : List ℕ)
    (evs : List Ev) (g1 : GState) (s1 : List ℕ),
    runScans n g s = (evs, .stop g1 s1) →
    ∃ l, evs = l ++ [Ev.dacWrite 819] := by
  intro n
  induction n with
  | zero => intro g s evs g1 s1 h; cases h
  | succ n ih =>
    intro g s evs g1 s1 h
    rcases hsb : runScanBody g s with ⟨evs0, r0⟩
    rcases r0 with ⟨g2, s2⟩ | ⟨g2, s2⟩ | _
    · rcases hp : runScans n g2 s2 with ⟨evs2, r2⟩
      simp only [runScans, hsb, hp] at h
      rcases r2 with ⟨g3, s3⟩ | ⟨g3, s3⟩ | _
      · cases h
      · obtain ⟨h1, -⟩ := Prod.mk.injEq .. ▸ h
        obtain ⟨l, hl⟩ := ih g2 s2 evs2 g3 s3 (by rw [hp])
        exact ⟨evs0 ++ l, by rw [← h1, hl, List.append_assoc]⟩
      · cases h
    · simp only [runScans, hsb] at h
      obtain ⟨h1, -⟩ := Prod.mk.injEq .. ▸ h
      obtain ⟨l, hl⟩ := runScanBodyPre_stop_form (dac_vLow g) (dac_vHigh g)
        (usub32 (dac_vHigh g) (dac_vLow g)) g s evs0 g2 s2 hsb
      exact ⟨l, by rw [← h1, hl]⟩
    · simp only [runScans, hsb] at h
      cases h

lemma sweep_stopped_form (g : GState) (s : List ℕ) :
    ∀ g1 s1, (sweep_voltage g s).2 = .stopped g1 s1 →
    ∃ l, (sweep_voltage g s).1 = l ++ [Ev.dacWrite 819] := by
  intro g1 s1 h
  rcases hr : runScans g.numScan.toNat g s with ⟨evs, r⟩
  rcases r with ⟨g2, s2⟩ | ⟨g2, s2⟩ | _ <;> simp only [sweep_voltage, hr] at h ⊢
  · cases h
  · exact runScans_stop_form g.numScan.toNat g s evs g2 s2 (by rw [hr])
  · cases h

lemma sweep_completed_form (g : GState) (s : List ℕ) :
    ∀ g1 s1, (sweep_voltage g s).2 = .completed g1 s1 →
    ∃ evs, (sweep_voltage g s).1 = evs ++ doneEvs := by
  intro g1 s1 h
  rcases hr : runScans g.numScan.toNat g s with ⟨evs, r⟩
  rcases r with ⟨g2, s2⟩ | ⟨g2, s2⟩ | _ <;> simp only [sweep_voltage, hr] at h ⊢
  · exact ⟨evs, rfl⟩
  · cases h
  · cases h

/-! ## Every event emitted inside the scan loops is a write, delay or sample -/

/-- Events that the step loops themselves can emit (no completion marker,
no handshake acknowledgement). -/
def stepEv : Ev → Bool
  | .dacWrite _ => true
  | .delayDiv _ => true
  | .sample _ => true
  | .doneLine => false
  | .ackLine => false

lemma stepBody_events (c d : ℕ) (g : GState) (s : List ℕ) :
    ∀ e ∈ (stepBody c d g s).1, stepEv e = true := by
  by_cases hc : g.continue_scan
  · rcases hck : check_start_pause_cmd g s with ⟨ok, g1, s1⟩
    rcases ok with _ | _
    · have heq : stepBody c d g s
          = ([.dacWrite c, .delayDiv d, .sample c, .dacWrite 819], .stop g1 s1) := by
        simp [stepBody, hc, hck]
      rw [heq]
      intro e he
      simp only [List.mem_cons, List.not_mem_nil, or_false] at he
      rcases he with rfl | rfl | rfl | rfl <;> rfl
    · have heq : stepBody c d g s
          = ([.dacWrite c, .delayDiv d, .sample c], .next g1 s1) := by
        simp [stepBody, hc, hck]
      rw [heq]
      intro e he
      simp only [List.mem_cons, List.not_mem_nil, or_false] at he
      rcases he with rfl | rfl | rfl <;> rfl
  · have hc' : g.continue_scan = false := by simpa using hc
    rcases hpw : pauseWait g s with ⟨g1, s1⟩ | ⟨g1, s1⟩ | _
    · rw [stepBody_false_stopped c d g g1 s s1 hc' hpw]
      intro e he
      simp only [List.mem_cons, List.not_mem_nil, or_false] at he
      rcases he with rfl
      rfl
    · rw [stepBody_false_resumed c d g g1 s s1 hc' hpw]
      intro e he
      simp at he
    · rw [stepBody_false_hang c d g s hc' hpw]
      intro e he
      simp at he

lemma runCodes_events (d : ℕ) : ∀ (codes : List ℕ) (g : GState) (s : List ℕ),
    ∀ e ∈ (runCodes d codes g s).1, stepEv e = true := by
  intro codes
  induction codes with
  | nil => intro g s e he; simp [runCodes] at he
  | cons c cs ih =>
    intro g s e he
    rcases hsb : stepBody c d g s with ⟨evs0, r0⟩
    have h0 : ∀ x ∈ evs0, stepEv x = true := by
      intro x hx; exact stepBody_events c d g s x (by rw [hsb]; exact hx)
    rcases r0 with ⟨g1, s1⟩ | ⟨g1, s1⟩ | _
    · rcases hp : runCodes d cs g1 s1 with ⟨evs2, r2⟩
      simp only [runCodes, hsb, hp] at he
      rcases List.mem_append.mp he with h | h
      · exact h0 e h
      · exact ih g1 s1 e (by rw [hp]; exact h)
    · simp only [runCodes, hsb] at he
      exact h0 e he
    · simp only [runCodes, hsb] at he
      exact h0 e he

lemma runScanBodyPre_events (L H d : ℕ) (g : GState) (s : List ℕ) :
    ∀ e ∈ (runScanBodyPre L H d g s).1, stepEv e = true := by
  intro e he
  rcases h1 : runCodes d (ascCodes L H) g s with ⟨evs1, r1⟩
  rcases r1 with ⟨g1, s1⟩ | ⟨g1, s1⟩ | _
  · rcases h2 : runCodes d (descCodes L H) g1 s1 with ⟨evs2, r2⟩
    simp only [runScanBodyPre, h1, h2] at he
    rcases List.mem_append.mp he with h | h
    · exact runCodes_events d (ascCodes L H) g s e (by rw [h1]; exact h)
    · exact runCodes_events d (descCodes L H) g1 s1 e (by rw [h2]; exact h)
  · simp only [runScanBodyPre, h1] at he
    exact runCodes_events d (ascCodes L H) g s e (by rw [h1]; exact he)
  · simp only [runScanBodyPre, h1] at he
    exact runCodes_events d (ascCodes L H) g s e (by rw [h1]; exact he)

lemma runScans_events : ∀ (n : ℕ) (g : GState) (s : List ℕ),
    ∀ e ∈ (runScans n g s).1, stepEv e = true := by
  intro n
  induction n with
  | zero => intro g s e he; simp [runScans] at he
  | succ n ih =>
    intro g s e he
    rcases hsb : runScanBody g s with ⟨evs0, r0⟩
    have hsb' : runScanBodyPre (dac_vLow g) (dac_vHigh g)
        (usub32 (dac_vHigh g) (dac_vLow g)) g s = (evs0, r0) := hsb
    have h0 : ∀ x ∈ evs0, stepEv x = true := by
      intro x hx
      apply runScanBodyPre_events (dac_vLow g) (dac_vHigh g)
        (usub32 (dac_vHigh g) (dac_vLow g)) g s x
      rw [hsb']
      exact hx
    rcases r0 with ⟨g1, s1⟩ | ⟨g1, s1⟩ | _
    · rcases hp : runScans n g1 s1 with ⟨evs2, r2⟩
      simp only [runScans, hsb, hp] at he
      rcases List.mem_append.mp he with h | h
      · exact h0 e h
      · exact ih g1 s1 e (by rw [hp]; exact h)
    · simp only [runScans, hsb] at he
      exact h0 e he
    · simp only [runScans, hsb] at he
      exact h0 e he

lemma sweep_no_ack (g : GState) (s : List ℕ) :
    Ev.ackLine ∉ (sweep_voltage g s).1 := by
  intro hmem
  rcases hr : runScans g.numScan.toNat g s with ⟨evs, r⟩
  have hevs : Ev.ackLine ∉ evs := by
    intro hx
    have := runScans_events g.numScan.toNat g s Ev.ackLine (by rw [hr]; exact hx)
    simp [stepEv] at this
  rcases r with ⟨g1, s1⟩ | ⟨g1, s1⟩ | _ <;> simp only [sweep_voltage, hr] at hmem
  · rcases List.mem_append.mp hmem with h | h
    · exact hevs h
    · simp [doneEvs] at h
  · exact hevs hmem
  · exact hevs hmem

lemma runScans_no_done (n : ℕ) (g : GState) (s : List ℕ) :
    Ev.doneLine ∉ (runScans n g s).1 := by
  intro hx
  have := runScans_events n g s Ev.doneLine hx
  simp [stepEv] at this

/-! ## Trace projections -/

lemma sampleCodes_append (l1 l2 : List Ev) :
    sampleCodes (l1 ++ l2) = sampleCodes l1 ++ sampleCodes l2 :=
  List.filterMap_append l1 l2 _

lemma writeCodes_append (l1 l2 : List Ev) :
    writeCodes (l1 ++ l2) = writeCodes l1 ++ writeCodes l2 :=
  List.filterMap_append l1 l2 _

lemma sampleCodes_phaseEvs (d : ℕ) : ∀ codes, sampleCodes (phaseEvs d codes) = codes := by
  intro codes
  induction codes with
  | nil => rfl
  | cons c cs ih =>
    show sampleCodes (stepEvs d c ++ phaseEvs d cs) = c :: cs
    rw [sampleCodes_append, ih]
    rfl

lemma writeCodes_phaseEvs (d : ℕ) : ∀ codes, writeCodes (phaseEvs d codes) = codes := by
  intro codes
  induction codes with
  | nil => rfl
  | cons c cs ih =>
    show writeCodes (stepEvs d c ++ phaseEvs d cs) = c :: cs
    rw [writeCodes_append, ih]
    rfl

lemma sampleCodes_repeatList (n : ℕ) (l : List Ev) :
    sampleCodes (repeatList n l) = repeatList n (sampleCodes l) := by
  induction n with
  | zero => rfl
  | succ n ih => show sampleCodes (l ++ repeatList n l) = _; rw [sampleCodes_append, ih]; rfl

lemma writeCodes_repeatList (n : ℕ) (l : List Ev) :
    writeCodes (repeatList n l) = repeatList n (writeCodes l) := by
  induction n with
  | zero => rfl
  | succ n ih => show writeCodes (l ++ repeatList n l) = _; rw [writeCodes_append, ih]; rfl

lemma length_repeatList {α : Type} (n : ℕ) (l : List α) :
    (repeatList n l).length = n * l.length := by
  induction n with
  | zero => simp [repeatList]
  | succ n ih =>
    show (l ++ repeatList n l).length = (n + 1) * l.length
    rw [List.length_append, ih]
    ring

lemma sampleCodes_scanEvs (L H d : ℕ) :
    sampleCodes (scanEvs L H d) = ascCodes L H ++ descCodes L H := by
  rw [scanEvs, sampleCodes_append, sampleCodes_phaseEvs, sampleCodes_phaseEvs]

lemma writeCodes_scanEvs (L H d : ℕ) :
    writeCodes (scanEvs L H d) = ascCodes L H ++ descCodes L H := by
  rw [scanEvs, writeCodes_append, writeCodes_phaseEvs, writeCodes_phaseEvs]

lemma writeCodes_doneEvs : writeCodes doneEvs = [819] := rfl

lemma sampleCodes_doneEvs : sampleCodes doneEvs = [] := rfl

/-! ## Counter-sequence facts -/

lemma length_upCodes : ∀ (k s : ℕ), (upCodes s k).length = k := by
  intro k
  induction k with
  | zero => intro s; rfl
  | succ m ih => intro s; show (s :: upCodes (s + 1) m).length = m + 1; simp [ih]

lemma length_downCodes : ∀ (k s : ℕ), (downCodes s k).length = k := by
  intro k
  induction k with
  | zero => intro s; rfl
  | succ m ih => intro s; show (s :: downCodes (s - 1) m).length = m + 1; simp [ih]

lemma chain'_upCodes : ∀ (k s : ℕ),
    List.Chain' (fun a b => b = a + 1) (upCodes s k) := by
  intro k
  induction k with
  | zero => intro s; exact List.chain'_nil
  | succ k ih =>
    intro s
    cases k with
    | zero => exact List.chain'_singleton s
    | succ m =>
      rw [show upCodes s (m + 2) = s :: (s + 1) :: upCodes (s + 2) m from rfl]
      refine List.chain'_cons.mpr ⟨rfl, ?_⟩
      exact ih (s + 1)

lemma chain'_downCodes : ∀ (k s : ℕ), k ≤ s + 1 →
    List.Chain' (fun a b => a = b + 1) (downCodes s k) := by
  intro k
  induction k with
  | zero => intro s _; exact List.chain'_nil
  | succ k ih =>
    intro s hk
    cases k with
    | zero => exact List.chain'_singleton s
    | succ m =>
      have hrel : s = (s - 1) + 1 := by omega
      rw [show downCodes s (m + 1 + 1) = s :: (s - 1) :: downCodes (s - 1 - 1) m from rfl]
      refine List.chain'_cons.mpr ⟨hrel, ?_⟩
      have := ih (s - 1) (by omega)
      rwa [show downCodes (s - 1) (m + 1) = (s - 1) :: downCodes (s - 1 - 1) m from rfl]
        at this

lemma getLast?_upCodes : ∀ (k s : ℕ), (upCodes s (k + 1)).getLast? = some (s + k) := by
  intro k
  induction k with
  | zero => intro s; rfl
  | succ m ih =>
    intro s
    rw [show upCodes s (m + 1 + 1) = s :: upCodes (s + 1) (m + 1) from rfl]
    cases hm : upCodes (s + 1) (m + 1) with
    | nil =>
      have := length_upCodes (m + 1) (s + 1)
      rw [hm] at this
      simp at this
    | cons x xs =>
      rw [List.getLast?_cons_cons]
      rw [← hm, ih (s + 1)]
      congr 1
      omega

lemma head?_upCodes (k s : ℕ) : (upCodes s (k + 1)).head? = some s := rfl

lemma head?_downCodes (k s : ℕ) : (downCodes s (k + 1)).head? = some s := rfl

/-! ## Claims -/

/-- C1: for every configuration with `codeHigh > codeLow` and `numScans ≥ 1`,
a sweep that runs to normal completion with no pause or stop command emits
exactly `numScans * 2 * (codeHigh - codeLow)` SampleRecords: `codeHigh -
codeLow` from each ascending phase (bounds `codeLow` inclusive to `codeHigh`
exclusive) and `codeHigh - codeLow` from each descending phase. -/
theorem C1_sample_count (g : GState) (s : List ℕ)
    (hc : g.continue_scan = true)
    (hlt : dac_vLow g < dac_vHigh g)
    (_hn : 1 ≤ g.numScan)
    (hs : ∀ b ∈ s, b ≠ START_PAUSE ∧ b ≠ STOP) :
    (∃ g' s', (sweep_voltage g s).2 = .completed g' s') ∧
    sampleCodes (sweep_voltage g s).1
      = repeatList g.numScan.toNat
          (ascCodes (dac_vLow g) (dac_vHigh g)
            ++ descCodes (dac_vLow g) (dac_vHigh g)) ∧
    (ascCodes (dac_vLow g) (dac_vHigh g)).length = dac_vHigh g - dac_vLow g ∧
    (descCodes (dac_vLow g) (dac_vHigh g)).length = dac_vHigh g - dac_vLow g ∧
    (ascCodes (dac_vLow g) (dac_vHigh g)).head? = some (dac_vLow g) ∧
    (ascCodes (dac_vLow g) (dac_vHigh g)).getLast? = some (dac_vHigh g - 1) ∧
    (sampleCodes (sweep_voltage g s).1).length
      = g.numScan.toNat * (2 * (dac_vHigh g - dac_vLow g)) := by
  obtain ⟨s', heq⟩ := sweep_voltage_benign g s hc hs
  set L := dac_vLow g with hLdef
  set H := dac_vHigh g with hHdef
  obtain ⟨k, hk⟩ : ∃ k, H = L + (k + 1) := ⟨H - L - 1, by omega⟩
  have hHL : H - L = k + 1 := by omega
  have htr : sampleCodes (sweep_voltage g s).1
      = repeatList g.numScan.toNat (ascCodes L H ++ descCodes L H) := by
    rw [heq]
    show sampleCodes (repeatList _ _ ++ doneEvs) = _
    rw [sampleCodes_append, sampleCodes_doneEvs, List.append_nil,
      sampleCodes_repeatList, sampleCodes_scanEvs]
  have hlasc : (ascCodes L H).length = H - L := length_upCodes (H - L) L
  have hldesc : (descCodes L H).length = H - L := length_downCodes (H - L) H
  have hhead : (ascCodes L H).head? = some L := by
    show (upCodes L (H - L)).head? = some L
    rw [hHL]
    exact head?_upCodes k L
  have hlast : (ascCodes L H).getLast? = some (H - 1) := by
    show (upCodes L (H - L)).getLast? = some (H - 1)
    rw [hHL, getLast?_upCodes k L]
    congr 1
    omega
  have hlen : (sampleCodes (sweep_voltage g s).1).length
      = g.numScan.toNat * (2 * (H - L)) := by
    rw [htr, length_repeatList, List.length_append, hlasc, hldesc]
    ring
  exact ⟨⟨g, s', by rw [heq]⟩, htr, hlasc, hldesc, hhead, hlast, hlen⟩

theorem C1_sample_count_witness :
    (gBase.continue_scan = true ∧ dac_vLow gBase < dac_vHigh gBase ∧
      1 ≤ gBase.numScan) ∧
    (sampleCodes (sweep_voltage gBase []).1).length
      = gBase.numScan.toNat * (2 * (dac_vHigh gBase - dac_vLow gBase)) :=
  ⟨⟨rfl, by decide, by decide⟩,
    (C1_sample_count gBase [] rfl (by decide) (by decide)
      (by decide)).2.2.2.2.2.2⟩

/-- C2: within one uninterrupted sweep, the DAC write codes of each ascending
phase are strictly increasing by exactly 1 per step, of each descending phase
strictly decreasing by exactly 1 per step, the pattern repeats `numScans`
times (followed only by the final rest-code write), and the first code of a
descent is exactly one more than the last code of the preceding ascent (no
gap in code value). -/
theorem C2_waveform (g : GState) (s : List ℕ)
    (hc : g.continue_scan = true)
    (hlt : dac_vLow g < dac_vHigh g)
    (_hn : 1 ≤ g.numScan)
    (hs : ∀ b ∈ s, b ≠ START_PAUSE ∧ b ≠ STOP) :
    writeCodes (sweep_voltage g s).1
      = repeatList g.numScan.toNat
          (ascCodes (dac_vLow g) (dac_vHigh g)
            ++ descCodes (dac_vLow g) (dac_vHigh g)) ++ [819] ∧
    List.Chain' (fun a b => b = a + 1) (ascCodes (dac_vLow g) (dac_vHigh g)) ∧
    List.Chain' (fun a b => a = b + 1) (descCodes (dac_vLow g) (dac_vHigh g)) ∧
    (ascCodes (dac_vLow g) (dac_vHigh g)).getLast? = some (dac_vHigh g - 1) ∧
    (descCodes (dac_vLow g) (dac_vHigh g)).head?
      = some ((dac_vHigh g - 1) + 1) := by
  obtain ⟨s', heq⟩ := sweep_voltage_benign g s hc hs
  set L := dac_vLow g with hLdef
  set H := dac_vHigh g with hHdef
  obtain ⟨k, hk⟩ : ∃ k, H = L + (k + 1) := ⟨H - L - 1, by omega⟩
  have hHL : H - L = k + 1 := by omega
  refine ⟨?_, ?_, ?_, ?_, ?_⟩
  · rw [heq]
    show writeCodes (repeatList _ _ ++ doneEvs) = _
    rw [writeCodes_append, writeCodes_doneEvs, writeCodes_repeatList,
      writeCodes_scanEvs]
  · exact chain'_upCodes (H - L) L
  · exact chain'_downCodes (H - L) H (by omega)
  · show (upCodes L (H - L)).getLast? = some (H - 1)
    rw [hHL, getLast?_upCodes k L]
    congr 1
    omega
  · show (downCodes H (H - L)).head? = some ((H - 1) + 1)
    rw [hHL, head?_downCodes k H]
    congr 1
    omega

theorem C2_waveform_witness :
    (gBase.continue_scan = true ∧ dac_vLow gBase < dac_vHigh gBase ∧
      1 ≤ gBase.numScan) ∧
    writeCodes (sweep_voltage gBase []).1
      = repeatList gBase.numScan.toNat
          (ascCodes (dac_vLow gBase) (dac_vHigh gBase)
            ++ descCodes (dac_vLow gBase) (dac_vHigh gBase)) ++ [819] :=
  ⟨⟨rfl, by decide, by decide⟩,
    (C2_waveform gBase [] rfl (by decide) (by decide) (by decide)).1⟩

/-- C3 counterexample: with misconfigured bounds (`codeHigh ≤ codeLow`, here
both equal to 819) the sweep evaluates no per-step delay at all — in
particular none with divisor zero — so no division by zero occurs; the run
immediately writes the rest code and the completion markers.  This refutes
the claim that a division by zero occurs while computing the per-step
delay. -/
theorem C3_counterexample :
    dac_vHigh gFlat ≤ dac_vLow gFlat ∧
    (sweep_voltage gFlat []).1 = doneEvs ∧
    Ev.delayDiv 0 ∉ (sweep_voltage gFlat []).1 ∧
    (∀ dv ∈ [0, 1, 819, 4294967295], Ev.delayDiv dv ∉ (sweep_voltage gFlat []).1) := by
  refine ⟨by decide, by decide, by decide, by decide⟩

/-- C3 (amended): if `codeHigh ≤ codeLow`, neither phase's loop body ever
executes: the sweep emits no samples and never evaluates the per-step delay
(so no division by zero occurs), and it immediately writes the rest code and
the completion markers. -/
theorem C3_no_step_no_div (g : GState) (s : List ℕ)
    (hle : dac_vHigh g ≤ dac_vLow g) :
    sweep_voltage g s = (doneEvs, .completed g s) ∧
    (∀ dv, Ev.delayDiv dv ∉ (sweep_voltage g s).1) ∧
    (∀ c, Ev.sample c ∉ (sweep_voltage g s).1) := by
  have hasc : ascCodes (dac_vLow g) (dac_vHigh g) = [] := by
    show upCodes _ (dac_vHigh g - dac_vLow g) = []
    rw [Nat.sub_eq_zero_of_le hle]
    rfl
  have hdesc : descCodes (dac_vLow g) (dac_vHigh g) = [] := by
    show downCodes _ (dac_vHigh g - dac_vLow g) = []
    rw [Nat.sub_eq_zero_of_le hle]
    rfl
  have hbody : ∀ s', runScanBody g s' = ([], .next g s') := by
    intro s'
    show runScanBodyPre _ _ _ g s' = _
    simp only [runScanBodyPre, hasc, hdesc, runCodes]
    rfl
  have hscans : ∀ n s', runScans n g s' = ([], .next g s') := by
    intro n
    induction n with
    | zero => intro s'; rfl
    | succ n ih =>
      intro s'
      simp only [runScans, hbody s', ih s']
      rfl
  have hsweep : sweep_voltage g s = (doneEvs, .completed g s) := by
    simp only [sweep_voltage, hscans g.numScan.toNat s]
    rfl
  refine ⟨hsweep, ?_, ?_⟩
  · intro dv hmem
    rw [hsweep] at hmem
    simp [doneEvs] at hmem
  · intro c hmem
    rw [hsweep] at hmem
    simp [doneEvs] at hmem

theorem C3_no_step_no_div_witness :
    dac_vHigh gFlat ≤ dac_vLow gFlat ∧
    sweep_voltage gFlat [] = (doneEvs, .completed gFlat []) :=
  ⟨by decide, (C3_no_step_no_div gFlat [] (by decide)).1⟩

/-- C4: on every terminating path out of the Sweep Engine — stop received
during active stepping, stop received while paused, or normal completion of
all scans — the last DAC write of the sweep's trace sets the output to the
fixed rest code 819. -/
theorem C4_rest_code (g : GState) (s : List ℕ)
    (h : (sweep_voltage g s).2 ≠ SweepRes.hang) :
    (writeCodes (sweep_voltage g s).1).getLast? = some 819 := by
  rcases hres : (sweep_voltage g s).2 with ⟨g1, s1⟩ | ⟨g1, s1⟩ | _
  · obtain ⟨evs, he⟩ := sweep_completed_form g s g1 s1 hres
    rw [he, writeCodes_append, writeCodes_doneEvs]
    exact List.getLast?_concat _
  · obtain ⟨l, hl⟩ := sweep_stopped_form g s g1 s1 hres
    rw [hl, writeCodes_append]
    show (writeCodes l ++ [819]).getLast? = some 819
    exact List.getLast?_concat _
  · exact absurd hres h

theorem C4_rest_code_witness :
    (sweep_voltage gBase [STOP]).2 ≠ SweepRes.hang ∧
    (writeCodes (sweep_voltage gBase [STOP]).1).getLast? = some 819 :=
  ⟨by decide, C4_rest_code gBase [STOP] (by decide)⟩

/-- C5 counterexample: with bound codes 0 and 2, pausing (opcode 4) after the
sample at code 0 and resuming (second opcode 4) skips the ascending step at
code 1 entirely: the interrupted run samples codes `[0, 2, 1]` while the
uninterrupted run samples `[0, 1, 2, 1]`.  Resumption is therefore not "at
the exact output code and phase at which it was paused". -/
theorem C5_counterexample :
    sampleCodes (sweep_voltage gBase [START_PAUSE, START_PAUSE]).1 = [0, 2, 1] ∧
    sampleCodes (sweep_voltage gBase []).1 = [0, 1, 2, 1] ∧
    sampleCodes (sweep_voltage gBase [START_PAUSE, START_PAUSE]).1
      ≠ sampleCodes (sweep_voltage gBase []).1 :=
  ⟨by decide, by decide, by decide⟩

/-- C5 (amended): opcode 4 mid-sweep toggles `continue_scan`; while the flag
is false a loop iteration emits no sample and no DAC write other than the
rest code on a stop; a second opcode 4 sets the flag true again and stepping
resumes, but the loop iteration at which the pause was observed is skipped:
the sweep continues with the codes after the paused one (one code per pause
is never written or sampled). -/
theorem C5_pause_resume (c d : ℕ) (cs : List ℕ) (g : GState) (s : List ℕ)
    (hc : g.continue_scan = false) :
    (∀ g0 : GState, (checkByte g0 START_PAUSE).2.continue_scan
      = !g0.continue_scan) ∧
    ((stepBody c d g s).1 = [] ∨ (stepBody c d g s).1 = [Ev.dacWrite 819]) ∧
    runCodes d (c :: cs) g (START_PAUSE :: s)
      = runCodes d cs { g with continue_scan := true } s := by
  have htoggle : ∀ g0 : GState,
      (checkByte g0 START_PAUSE).2.continue_scan = !g0.continue_scan := by
    intro g0
    rw [checkByte_pause]
  have hnoev : (stepBody c d g s).1 = [] ∨ (stepBody c d g s).1 = [Ev.dacWrite 819] := by
    rcases hpw : pauseWait g s with ⟨g1, s1⟩ | ⟨g1, s1⟩ | _
    · right; rw [stepBody_false_stopped c d g g1 s s1 hc hpw]
    · left; rw [stepBody_false_resumed c d g g1 s s1 hc hpw]
    · left; rw [stepBody_false_hang c d g s hc hpw]
  have hres : pauseWait g (START_PAUSE :: s)
      = .resumed { g with continue_scan := true } s := by
    have h1 : ({ g with continue_scan := !g.continue_scan } : GState)
        = { g with continue_scan := true } := by rw [hc]; rfl
    cases s with
    | nil => simp [pauseWait, hc, checkByte_pause, h1]
    | cons x xs => simp [pauseWait, hc, checkByte_pause, h1]
  have hskip : runCodes d (c :: cs) g (START_PAUSE :: s)
      = runCodes d cs { g with continue_scan := true } s := by
    rw [show runCodes d (c :: cs) g (START_PAUSE :: s)
        = match stepBody c d g (START_PAUSE :: s) with
          | (evs, .next g1 s1) =>
            match runCodes d cs g1 s1 with
            | (evs2, r) => (evs ++ evs2, r)
          | (evs, .stop g1 s1) => (evs, .stop g1 s1)
          | (evs, .hang) => (evs, .hang) from rfl]
    rw [stepBody_false_resumed c d g { g with continue_scan := true }
      (START_PAUSE :: s) s hc hres]
    rcases hq : runCodes d cs { g with continue_scan := true } s with ⟨evs2, r2⟩
    exact hq
  exact ⟨htoggle, hnoev, hskip⟩

theorem C5_pause_resume_witness :
    gPaused.continue_scan = false ∧
    ((stepBody 0 2 gPaused []).1 = [] ∨
      (stepBody 0 2 gPaused []).1 = [Ev.dacWrite 819]) ∧
    runCodes 2 [1] gPaused [START_PAUSE]
      = runCodes 2 [] { gPaused with continue_scan := true } [] :=
  ⟨rfl, (C5_pause_resume 0 2 [] gPaused [] rfl).2.1,
    (C5_pause_resume 1 2 [] gPaused [] rfl).2.2⟩

/-- C6: configuration values changed during an active sweep take effect only
on the next sweep invocation: the faithful sweep (which re-evaluates the
bound codes from the globals at the start of every scan) produces exactly the
same trace and result as the sweep with bounds and delay divisor computed
once up front at entry, and no execution of the sweep — whatever bytes
arrive mid-sweep — ever changes the configuration fields it would read. -/
theorem C6_config_snapshot (g : GState) (s : List ℕ) :
    sweep_voltage g s = sweep_voltage_precomputed g s ∧
    (∀ g', (sweep_voltage g s).2.g? = some g' → configOf g' = configOf g) :=
  ⟨sweep_eq_pre g s, sweep_voltage_config g s⟩

theorem C6_config_snapshot_witness :
    (sweep_voltage gBase []).2.g? = some gBase ∧
    configOf gBase = configOf gBase :=
  ⟨rfl, (C6_config_snapshot gBase []).2 gBase rfl⟩

/-- C7 counterexample: the dispatcher's opcode-4 case executes
`continue_scan = true` — it sets the flag rather than flipping it.  From a
state whose flag is already true, the source enters the sweep with the flag
true (the sweep completes and samples on an empty stream), whereas flipping
would clear the flag and the sweep would busy-wait forever.  This refutes
"flips continueFlag". -/
theorem C7_counterexample :
    gBase.continue_scan = true ∧
    (startPauseUpdate gBase).continue_scan = true ∧
    (startPauseFlip gBase).continue_scan = false ∧
    (startPauseUpdate gBase).continue_scan ≠ !gBase.continue_scan ∧
    (sweep_voltage (startPauseUpdate gBase) []).2 ≠ SweepRes.hang ∧
    (sweep_voltage (startPauseFlip gBase) []).2 = SweepRes.hang :=
  ⟨rfl, rfl, rfl, by decide, by decide, by decide⟩

/-- C7 (amended): when the dispatcher receives opcode 4 (necessarily while no
sweep is running, since the dispatcher only runs between sweeps), it sets
`continue_scan` to true regardless of its prior value and then runs the Sweep
Engine synchronously: the dispatcher call returns exactly the sweep's trace
and result. -/
theorem C7_start_sets_flag (g : GState) (s : List ℕ) :
    (startPauseUpdate g).continue_scan = true ∧
    loopStep g (START_PAUSE :: s)
      = ((sweep_voltage (startPauseUpdate g) s).1,
          toLoopRes (sweep_voltage (startPauseUpdate g) s).2) := by
  refine ⟨rfl, ?_⟩
  rfl

/-- C8: a Stop (opcode 9) at the head of the stream terminates sample
emission within at most one step interval: during active stepping the step
in flight emits its one sample and then the sweep returns with the rest-code
write as its final event; while paused it returns with the rest-code write
and no sample at all (Stop wins over Pause); and any stopped sweep's trace
ends with the rest-code write and contains no completion marker (all
remaining scans are abandoned). -/
theorem C8_stop :
    (∀ (c d : ℕ) (g : GState) (s : List ℕ), g.continue_scan = true →
      stepBody c d g (STOP :: s)
        = ([.dacWrite c, .delayDiv d, .sample c, .dacWrite 819], .stop g s)) ∧
    (∀ (c d : ℕ) (g : GState) (s : List ℕ), g.continue_scan = false →
      stepBody c d g (STOP :: s) = ([.dacWrite 819], .stop g s)) ∧
    (∀ (g : GState) (s : List ℕ) (g1 : GState) (s1 : List ℕ),
      (sweep_voltage g s).2 = .stopped g1 s1 →
      (∃ l, (sweep_voltage g s).1 = l ++ [Ev.dacWrite 819]) ∧
      Ev.doneLine ∉ (sweep_voltage g s).1) := by
  refine ⟨?_, ?_, ?_⟩
  · intro c d g s hc
    exact stepBody_true_stop c d g s hc
  · intro c d g s hc
    have hpw : pauseWait g (STOP :: s) = .stopped g s := by
      simp [pauseWait, hc, checkByte_stop]
    exact stepBody_false_stopped c d g g (STOP :: s) s hc hpw
  · intro g s g1 s1 h
    rcases hr : runScans g.numScan.toNat g s with ⟨evs, r⟩
    rcases r with ⟨g2, s2⟩ | ⟨g2, s2⟩ | _ <;>
      simp only [sweep_voltage, hr] at h ⊢
    · cases h
    · refine ⟨runScans_stop_form g.numScan.toNat g s evs g2 s2 (by rw [hr]), ?_⟩
      intro hm
      exact runScans_no_done g.numScan.toNat g s (by rw [hr]; exact hm)
    · cases h

theorem C8_stop_witness :
    gBase.continue_scan = true ∧ gPaused.continue_scan = false ∧
    stepBody 0 2 gBase [STOP]
      = ([.dacWrite 0, .delayDiv 2, .sample 0, .dacWrite 819],
          .stop gBase []) ∧
    stepBody 0 2 gPaused [STOP] = ([Ev.dacWrite 819], .stop gPaused []) ∧
    (sweep_voltage gBase [STOP]).2 = SweepRes.stopped gBase [] ∧
    (∃ l, (sweep_voltage gBase [STOP]).1 = l ++ [Ev.dacWrite 819]) ∧
    Ev.doneLine ∉ (sweep_voltage gBase [STOP]).1 :=
  ⟨rfl, rfl,
    C8_stop.1 0 2 gBase [] rfl,
    C8_stop.2.1 0 2 gPaused [] rfl,
    rfl,
    (C8_stop.2.2 gBase [STOP] gBase [] rfl).1,
    (C8_stop.2.2 gBase [STOP] gBase [] rfl).2⟩

/-- C9: for opcodes 5, 6, 7 and 8 the numeric payload is read up to and
consuming the fixed delimiter byte 120 (`'x'`) and the parsed value is
stored; a token containing no digit (malformed or empty) parses to zero for
both the float and the integer parser, with no error raised; and an inbound
byte that is none of the seven known opcodes causes no state change and no
output. -/
theorem C9_payload_parsing :
    (∀ (tok rest : List ℕ), (120 : ℕ) ∉ tok →
      readStringUntilB 120 (tok ++ 120 :: rest) = (tok, rest)) ∧
    (∀ (g : GState) (s : List ℕ), loopStep g (READ_SWEEPTIME :: s)
      = ([], .ok { g with sweeptime := parseFloatTok (readStringUntilB 120 s).1 }
          (readStringUntilB 120 s).2)) ∧
    (∀ (g : GState) (s : List ℕ), loopStep g (READ_VLOW :: s)
      = ([], .ok { g with
            vLow := parseFloatTok (readStringUntilB 120 s).1,
            vLow_comp := parseFloatTok (readStringUntilB 120 s).1 + 1 }
          (readStringUntilB 120 s).2)) ∧
    (∀ (g : GState) (s : List ℕ), loopStep g (READ_VHIGH :: s)
      = ([], .ok { g with
            vHigh := parseFloatTok (readStringUntilB 120 s).1,
            vHigh_comp := parseFloatTok (readStringUntilB 120 s).1 + 1 }
          (readStringUntilB 120 s).2)) ∧
    (∀ (g : GState) (s : List ℕ), loopStep g (READ_NUM_SCAN :: s)
      = ([], .ok { g with numScan := parseIntTok (readStringUntilB 120 s).1 }
          (readStringUntilB 120 s).2)) ∧
    (∀ tok : List ℕ, (∀ b ∈ tok, isDigitB b = false) →
      parseFloatTok tok = 0 ∧ parseIntTok tok = 0) ∧
    (∀ (b : ℕ) (g : GState) (rest : List ℕ),
      b ≠ HANDSHAKE → b ≠ START_PAUSE → b ≠ READ_SWEEPTIME → b ≠ READ_VLOW →
      b ≠ READ_VHIGH → b ≠ READ_NUM_SCAN → b ≠ STOP →
      loopStep g (b :: rest) = ([], .ok g rest)) := by
  have htd : ∀ l : List ℕ, (∀ b ∈ l, isDigitB b = false) →
      takeDigits l = ([], l) := by
    intro l h
    cases l with
    | nil => rfl
    | cons b bs => simp [takeDigits, h b (List.mem_cons_self b bs)]
  have hpu : ∀ l : List ℕ, (∀ b ∈ l, isDigitB b = false) →
      parseUnsignedQ l = none := by
    intro l h
    cases l with
    | nil => rfl
    | cons b bs =>
      by_cases hb : b = 46
      · subst hb
        have hbs : takeDigits bs = ([], bs) :=
          htd bs (fun x hx => h x (List.mem_cons_of_mem _ hx))
        simp [parseUnsignedQ, htd _ h, hbs]
      · simp [parseUnsignedQ, htd _ h, hb]
  refine ⟨?_, fun g s => rfl, fun g s => rfl, fun g s => rfl, fun g s => rfl,
    ?_, ?_⟩
  · intro tok
    induction tok with
    | nil => intro rest _; simp [readStringUntilB]
    | cons b bs ih =>
      intro rest hn
      have hb : b ≠ 120 := fun h => hn (h ▸ List.mem_cons_self b bs)
      have hbs : (120 : ℕ) ∉ bs := fun h => hn (List.mem_cons_of_mem b h)
      simp [readStringUntilB, hb, ih rest hbs]
  · intro tok h
    constructor
    · cases tok with
      | nil => rfl
      | cons b bs =>
        have hbs : ∀ x ∈ bs, isDigitB x = false :=
          fun x hx => h x (List.mem_cons_of_mem _ hx)
        by_cases h45 : b = 45
        · subst h45; simp [parseFloatTok, hpu bs hbs]
        · by_cases h43 : b = 43
          · subst h43; simp [parseFloatTok, hpu bs hbs]
          · simp [parseFloatTok, h45, h43, hpu _ h]
    · cases tok with
      | nil => rfl
      | cons b bs =>
        have hbs : ∀ x ∈ bs, isDigitB x = false :=
          fun x hx => h x (List.mem_cons_of_mem _ hx)
        by_cases h45 : b = 45
        · subst h45; simp [parseIntTok, htd bs hbs, digitsToNat]
        · by_cases h43 : b = 43
          · subst h43; simp [parseIntTok, htd bs hbs, digitsToNat]
          · simp [parseIntTok, h45, h43, htd _ h, digitsToNat]
  · intro b g rest h0 h4 h5 h6 h7 h8 _
    simp [loopStep, h0, h4, h5, h6, h7, h8]

theorem C9_payload_parsing_witness :
    ((120 : ℕ) ∉ [49, 48] ∧
      readStringUntilB 120 ([49, 48] ++ 120 :: [7]) = ([49, 48], [7])) ∧
    ((∀ b ∈ [97], isDigitB b = false) ∧
      parseFloatTok [97] = 0 ∧ parseIntTok [97] = 0) ∧
    loopStep gBase [3] = ([], .ok gBase []) :=
  ⟨⟨by decide, C9_payload_parsing.1 [49, 48] [7] (by decide)⟩,
   ⟨by decide, C9_payload_parsing.2.2.2.2.2.1 [97] (by decide)⟩,
   C9_payload_parsing.2.2.2.2.2.2 3 gBase [] (by decide) (by decide)
     (by decide) (by decide) (by decide) (by decide) (by decide)⟩

/-- C10: during an active sweep the per-step poll reads at most one byte
(the stream after the poll is the tail of the stream before it), modifies
nothing but possibly the `continue_scan` flag (all configuration fields and
compensated values are preserved), leaves the state entirely unchanged for
any byte other than opcodes 4 and 9 (consumed and discarded), and the sweep
never emits a handshake acknowledgement nor changes the configuration. -/
theorem C10_midsweep_frame :
    (∀ (g : GState) (s : List ℕ), (check_start_pause_cmd g s).2.2 = s.tail) ∧
    (∀ (g : GState) (s : List ℕ),
      configOf (check_start_pause_cmd g s).2.1 = configOf g) ∧
    (∀ (g : GState) (b : ℕ) (rest : List ℕ), b ≠ START_PAUSE → b ≠ STOP →
      check_start_pause_cmd g (b :: rest) = (true, g, rest)) ∧
    (∀ (g : GState) (s : List ℕ), Ev.ackLine ∉ (sweep_voltage g s).1) ∧
    (∀ (g : GState) (s : List ℕ) (g' : GState),
      (sweep_voltage g s).2.g? = some g' → configOf g' = configOf g) := by
  refine ⟨?_, ?_, ?_, ?_, ?_⟩
  · intro g s
    cases s with
    | nil => rfl
    | cons b rest => rfl
  · intro g s
    cases s with
    | nil => rfl
    | cons b rest => exact checkByte_config g b
  · intro g b rest h4 h9
    simp [check_start_pause_cmd, checkByte_ne g b h4 h9]
  · exact sweep_no_ack
  · exact sweep_voltage_config

theorem C10_midsweep_frame_witness :
    ((7 : ℕ) ≠ START_PAUSE ∧ (7 : ℕ) ≠ STOP ∧
      check_start_pause_cmd gBase [7] = (true, gBase, [])) ∧
    ((sweep_voltage gBase [7]).2.g? = some gBase ∧
      configOf gBase = configOf gBase) :=
  ⟨⟨by decide, by decide,
      C10_midsweep_frame.2.2.1 gBase 7 [] (by decide) (by decide)⟩,
   ⟨rfl, C10_midsweep_frame.2.2.2.2 gBase [7] gBase rfl⟩⟩
